import Mathlib

/-!
Verification of the log-parsing and parameter-merge core of the
opentelemetry-gha-trace-generator action.

Source functions embedded here:
* `parseStepLogs`, `parseJobLogs` from `src/logParser.ts`
* `mergeSpanParameters` (and the `SpanParameters` shape) from `artifactLoader.ts`

Strings are modelled as `String` / `List Char`; the string-keyed JS objects
(`Record<string, string>`) are modelled extensionally as `String → Option String`
(assignment is pointwise function update, spread is pointwise right-biased
union), and the JS `Map<number, ...>` of `parseJobLogs` as an association list
with `Map.set` replace-or-append semantics.  The `core.debug` logging calls are
effect-free for the result and are omitted.

The four tag regexes, e.g.
`/<span-parameter\s+key="([^"]+)"\s+value="([^"]*)"\s*\/>/g`, are embedded by a
deterministic maximal-munch matcher `matchTagFrom`: in these patterns
backtracking can never turn a failure into a success (after each greedy class
the required next literal character is excluded from the class), so the
maximal-munch matcher computes exactly the JS regex match at a position, and
`matchAll` is the left-to-right non-overlapping scan `scanPos`.
-/

namespace GhaTrace

/-- The character class `\s` of ECMAScript regular expressions. -/
def jsSpace (c : Char) : Bool :=
  c = ' ' || c = '\t' || c = '\n' || c = '\x0b' || c = '\x0c' || c = '\r' ||
  c = '\u00A0' || c = '\u1680' || ('\u2000' ≤ c && c ≤ '\u200A') ||
  c = '\u2028' || c = '\u2029' || c = '\u202F' || c = '\u205F' || c = '\u3000' ||
  c = '\uFEFF'

/-- The character class `[^"]` of the tag regexes. -/
def notQuote (c : Char) : Bool := !(c = '"')

/-- Match a literal character sequence at the front of the input, returning the
remainder on success. -/
def dropLit : List Char → List Char → Option (List Char)
  | [], cs => some cs
  | _ :: _, [] => none
  | p :: ps, c :: cs => if c = p then dropLit ps cs else none

/-- Tag name of `SPAN_PARAM_REGEX`. -/
def SPAN_TAG : List Char := "span-parameter".data
/-- Tag name of `STEP_PARAM_REGEX`. -/
def STEP_TAG : List Char := "step-parameter".data
/-- Tag name of `JOB_PARAM_REGEX`. -/
def JOB_TAG : List Char := "job-parameter".data
/-- Tag name of `WORKFLOW_PARAM_REGEX`. -/
def WORKFLOW_TAG : List Char := "workflow-parameter".data

/-- The literal `key="` of the tag regexes. -/
def keyLit : List Char := "key=\"".data
/-- The literal `value="` of the tag regexes. -/
def valueLit : List Char := "value=\"".data
/-- The literal `/>` closing the tags. -/
def closeLit : List Char := "/>".data

/-- The regex `/<NAME\s+key="([^"]+)"\s+value="([^"]*)"\s*\/>/` applied at the
start of `cs`: on success returns the two captures and the unconsumed rest. -/
def matchTagFrom (name : List Char) (cs : List Char) : Option (String × String × List Char) :=
  (dropLit ('<' :: name) cs).bind fun cs1 =>
  if cs1.takeWhile jsSpace = [] then none else
  (dropLit keyLit (cs1.dropWhile jsSpace)).bind fun cs3 =>
  if cs3.takeWhile notQuote = [] then none else
  (dropLit ['"'] (cs3.dropWhile notQuote)).bind fun cs5 =>
  if cs5.takeWhile jsSpace = [] then none else
  (dropLit valueLit (cs5.dropWhile jsSpace)).bind fun cs7 =>
  (dropLit ['"'] (cs7.dropWhile notQuote)).bind fun cs9 =>
  (dropLit closeLit (cs9.dropWhile jsSpace)).map fun cs10 =>
  (⟨cs3.takeWhile notQuote⟩, ⟨cs7.takeWhile notQuote⟩, cs10)

/-- One match produced by the global scan: start position, matched length and
the two captures. -/
structure TagHit where
  start : Nat
  len : Nat
  key : String
  tagValue : String
deriving DecidableEq, Repr

/-- Fuelled worker for the global scan; `full.length + 1` fuel always
suffices because every match consumes at least one character. -/
def scanPosAux (name full : List Char) : Nat → Nat → List TagHit
  | _, 0 => []
  | i, fuel + 1 =>
    if full.length ≤ i then []
    else
      match matchTagFrom name (full.drop i) with
      | some (k, v, rest) =>
        ⟨i, (full.drop i).length - rest.length, k, v⟩ ::
          scanPosAux name full (i + ((full.drop i).length - rest.length)) fuel
      | none => scanPosAux name full (i + 1) fuel

/-- The left-to-right non-overlapping global scan (`String.prototype.matchAll`
with a `/g` regex) starting at position `i`. -/
def scanPos (name full : List Char) (i : Nat) : List TagHit :=
  scanPosAux name full i (full.length + 1 - i)

/-- The (key, value) capture pairs of all matches, in match order. -/
def scanTags (name : List Char) (cs : List Char) : List (String × String) :=
  (scanPos name cs 0).map (fun e => (e.key, e.tagValue))

/-- Extensional model of a JS `Record<string, string>`. -/
abbrev StrMap := String → Option String

/-- The empty record `{}`. -/
def emptyMap : StrMap := fun _ => none

/-- The JS assignment `m[k] = v`. -/
def setk (m : StrMap) (k v : String) : StrMap :=
  fun q => if q = k then some v else m q

/-- The `for (const match of logs.matchAll(R)) result[match[1]] = match[2]` loop. -/
def applyMatches (m : StrMap) : List (String × String) → StrMap
  | [] => m
  | p :: rest => applyMatches (setk m p.1 p.2) rest

/-- Right-option fallback: `fb a b` is `a` if present, else `b`. -/
def fb (a b : Option String) : Option String :=
  match a with
  | some v => some v
  | none => b

/-- Value of the last (rightmost) pair with the given key, if any. -/
def lastVal : List (String × String) → String → Option String
  | [], _ => none
  | p :: rest, q => fb (lastVal rest q) (if q = p.1 then some p.2 else none)

/-- Structure `ParsedStepLogs` of `src/logParser.ts`. -/
structure ParsedStepLogs where
  stepParameters : StrMap
  jobParameters : StrMap
  workflowParameters : StrMap

/-- Function `parseStepLogs` of `src/logParser.ts`: scan one text block with the four
tag regexes; span- and step-parameter matches both land in `stepParameters`
(span pass first), job and workflow matches in their own records. -/
def parseStepLogs (logs : String) : ParsedStepLogs :=
  { stepParameters :=
      applyMatches (applyMatches emptyMap (scanTags SPAN_TAG logs.data))
        (scanTags STEP_TAG logs.data)
    jobParameters := applyMatches emptyMap (scanTags JOB_TAG logs.data)
    workflowParameters := applyMatches emptyMap (scanTags WORKFLOW_TAG logs.data) }

/-- The `Step` descriptor interface of `src/logParser.ts`. -/
structure Step where
  name : String
  number : Int
deriving DecidableEq, Repr

/-- The step-start marker substring `##[group]` (the regex `/##\[group\]/`). -/
def markerPat : List Char := "##[group]".data

/-- Whether `pat` occurs at the front of `l`. -/
def startsWithChars : List Char → List Char → Bool
  | [], _ => true
  | _ :: _, [] => false
  | p :: ps, c :: cs => p = c && startsWithChars ps cs

/-- Whether `pat` occurs anywhere in `l`. -/
def containsChars (pat : List Char) : List Char → Bool
  | [] => startsWithChars pat []
  | c :: cs => startsWithChars pat (c :: cs) || containsChars pat cs

/-- Whether `line.match(/##\[group\]/)` is non-null. -/
def hasMarker (l : List Char) : Bool := containsChars markerPat l

/-- The split `jobLog.split("\n")` on character lists. -/
def splitNl (cs : List Char) : List (List Char) :=
  cs.foldr (fun c acc => if c = '\n' then [] :: acc else (c :: acc.headI) :: acc.tail) [[]]

/-- The join `currentStepLogs.join("\n")`. -/
def joinNl (ls : List (List Char)) : String := ⟨List.intercalate ['\n'] ls⟩

/-- JS `Map.set` on an association list: replace in place if the key exists,
otherwise append. -/
def mapSet (m : List (Int × ParsedStepLogs)) (k : Int) (v : ParsedStepLogs) :
    List (Int × ParsedStepLogs) :=
  if m.any (fun p => p.1 == k) then m.map (fun p => if p.1 == k then (k, v) else p)
  else m ++ [(k, v)]

/-- Loop state of `parseJobLogs`: `currentStepNumber`, `currentStepLogs` and
the accumulated `stepLogs` map. -/
structure SegState where
  idx : Int
  cur : List (List Char)
  acc : List (Int × ParsedStepLogs)

/-- The `if (currentStepNumber >= 0 && currentStepLogs.length > 0)` flush. -/
def flushSeg (st : SegState) : List (Int × ParsedStepLogs) :=
  if 0 ≤ st.idx ∧ st.cur ≠ [] then mapSet st.acc st.idx (parseStepLogs (joinNl st.cur))
  else st.acc

/-- The body of the `for (const line of lines)` loop of `parseJobLogs`. -/
def segStep (st : SegState) (line : List Char) : SegState :=
  if hasMarker line then
    { idx := st.idx + 1, cur := [line], acc := flushSeg st }
  else
    { st with cur := st.cur ++ [line] }

/-- Function `parseJobLogs` of `src/logParser.ts`. -/
def parseJobLogs (jobLog : String) (steps : List Step) : List (Int × ParsedStepLogs) :=
  if jobLog = "" ∨ steps = [] then []
  else flushSeg ((splitNl jobLog.data).foldl segStep ⟨-1, [], []⟩)

/-- Specification-side segmentation: the segment open in `cur` extends until
the next marker line, which starts the next segment; the final open segment is
emitted at the end. -/
def segsFrom (cur : List (List Char)) : List (List Char) → List (List (List Char))
  | [] => [cur]
  | l :: rest => if hasMarker l then cur :: segsFrom [l] rest else segsFrom (cur ++ [l]) rest

/-- Specification-side segmentation of a whole line list: lines before the
first marker are discarded; each marker line starts a segment that runs to the
line before the next marker. -/
def segmentsOf (lines : List (List Char)) : List (List (List Char)) :=
  match lines.dropWhile (fun l => !hasMarker l) with
  | [] => []
  | m :: rest => segsFrom [m] rest

/-- Parse each segment and key the results `k, k+1, ...` in order. -/
def enumSegs (k : Int) : List (List (List Char)) → List (Int × ParsedStepLogs)
  | [] => []
  | s :: rest => (k, parseStepLogs (joinNl s)) :: enumSegs (k + 1) rest

/-- Structure `SpanParameters` of `artifactLoader.ts`. -/
structure SpanParameters where
  workflow : StrMap
  job : StrMap
  steps : String → Option StrMap

/-- The JS object spread `{ ...a, ...b }` (later source wins), extensionally. -/
def spread (a b : StrMap) : StrMap := fun q => fb (b q) (a q)

/-- The empty bundle `{workflow: {}, job: {}, steps: {}}`. -/
def emptySpanParameters : SpanParameters :=
  ⟨fun _ => none, fun _ => none, fun _ => none⟩

/-- Function `mergeSpanParameters` of `artifactLoader.ts`: start from the empty bundle,
copy the log-side bundle in (lower priority), then overlay the artifact-side
bundle key-wise; the per-step loop writes each step name independently, so it
is embedded pointwise in the step name. -/
def mergeSpanParameters (artifactParams logParams : Option SpanParameters) : SpanParameters :=
  let merged1 : SpanParameters :=
    match logParams with
    | none => emptySpanParameters
    | some lp =>
      ⟨fun q => lp.workflow q, fun q => lp.job q,
       fun s => (lp.steps s).map (fun m => fun q => m q)⟩
  match artifactParams with
  | none => merged1
  | some ap =>
    ⟨spread merged1.workflow ap.workflow,
     spread merged1.job ap.job,
     fun s =>
       match ap.steps s with
       | some sp =>
         some (spread (match merged1.steps s with | some m => m | none => emptyMap) sp)
       | none => merged1.steps s⟩

/-- Lookup of one key of one step of a bundle. -/
def stepVal (S : SpanParameters) (s q : String) : Option String :=
  (S.steps s).bind (fun m => m q)

/-- The record with all three scopes empty. -/
def emptyParsed : ParsedStepLogs := ⟨emptyMap, emptyMap, emptyMap⟩

/-- The text `<span-parameter key="K" value="V"/>` for given captures. -/
def tagText (K V : String) : String :=
  "<span-parameter key=\"" ++ K ++ "\" value=\"" ++ V ++ "\"/>"

/-- The text `<NAME key="K" value="V"/>` of an arbitrary one of the four tag
shapes, for given captures. -/
def tagTextFor (name : List Char) (K V : String) : String :=
  "<" ++ ⟨name⟩ ++ " key=\"" ++ K ++ "\" value=\"" ++ V ++ "\"/>"

/-- A text in which a well-formed span-parameter occurrence (key `/>x`,
value `v`, starting at index 31) overlaps the match found at index 0 and is
therefore skipped by the non-overlapping scan. -/
def advText : String :=
  "<span-parameter key=\"a\" value=\"<span-parameter key=\"/>x\" value=\"v\"/>"

/-- The opening literal of `tagText` up to and including the key quote. -/
def spanOpenLit : List Char := "<span-parameter key=\"".data

/-- The middle literal of `tagText` between the two captures. -/
def midLit : List Char := "\" value=\"".data

/-- The final literal of `tagText` after the value capture. -/
def endLit : List Char := "\"/>".data

/-- A block in which the same key appears in both step-scope shapes, the
explicit shape textually first. -/
def crossText : String :=
  "<step-parameter key=\"count\" value=\"2\"/> <span-parameter key=\"count\" value=\"1\"/>"

/-- A two-marker job log with leading discarded content and trailing text. -/
def logW : String :=
  "prelude line\n##[group]Run step one\n<span-parameter key=\"a\" value=\"1\"/>\n##[group]Run step two\ntail text"

/-- A one-step descriptor list. -/
def stepsW1 : List Step := [⟨"one", 1⟩]

/-- A two-step descriptor list with different names and numbers. -/
def stepsW2 : List Step := [⟨"alpha", 7⟩, ⟨"beta", 9⟩]

end GhaTrace

namespace GhaTrace

/-! ### Basic facts about the matcher components -/

theorem dropLit_eq : ∀ {l cs r : List Char}, dropLit l cs = some r → cs = l ++ r := by
  intro l
  induction l with
  | nil =>
    intro cs r h
    simp only [dropLit, Option.some.injEq] at h
    simp [h]
  | cons p ps ih =>
    intro cs r h
    match cs with
    | [] => simp [dropLit] at h
    | c :: cs' =>
      simp only [dropLit] at h
      by_cases hc : c = p
      · rw [if_pos hc] at h
        subst hc
        simpa using ih h
      · rw [if_neg hc] at h
        cases h

theorem dropLit_append (l r : List Char) : dropLit l (l ++ r) = some r := by
  induction l with
  | nil => rfl
  | cons p ps ih => simpa [dropLit] using ih

theorem dropLit_head_neg {name : List Char} {c : Char} (hc : ¬c = '<') (cs : List Char) :
    dropLit ('<' :: name) (c :: cs) = none := by
  simp [dropLit, hc]

theorem takeWhile_head_neg {p : Char → Bool} {x : Char} (hx : p x = false) (xs Y : List Char) :
    ((x :: xs) ++ Y).takeWhile p = [] := by
  simp [List.takeWhile_cons, hx]

theorem takeWhile_stop {p : Char → Bool} :
    ∀ {l : List Char} (m : List Char), (∀ c ∈ l, p c = true) → m.takeWhile p = [] →
      (l ++ m).takeWhile p = l ∧ (l ++ m).dropWhile p = m := by
  intro l
  induction l with
  | nil =>
    intro m _ hm
    refine ⟨by simpa using hm, ?_⟩
    have h2 := List.takeWhile_append_dropWhile p m
    rw [hm, List.nil_append] at h2
    rw [List.nil_append]
    exact h2
  | cons a l' ih =>
    intro m hall hm
    have ha : p a = true := hall a (by simp)
    have ih' := ih m (fun c hc => hall c (by simp [hc])) hm
    constructor
    · simp [List.takeWhile_cons, ha, ih'.1]
    · simp [List.dropWhile_cons, ha, ih'.2]

theorem keyLit_eq : keyLit = 'k' :: 'e' :: 'y' :: '=' :: '"' :: [] := rfl

theorem valueLit_eq : valueLit = 'v' :: 'a' :: 'l' :: 'u' :: 'e' :: '=' :: '"' :: [] := rfl

theorem closeLit_eq : closeLit = '/' :: '>' :: [] := rfl

theorem scanKey (w : List Char) (Y : List Char) (hw : ∀ c ∈ w, jsSpace c = true) :
    (w ++ (keyLit ++ Y)).takeWhile jsSpace = w ∧ (w ++ (keyLit ++ Y)).dropWhile jsSpace = keyLit ++ Y :=
  takeWhile_stop (keyLit ++ Y) hw (by rw [keyLit_eq]; exact takeWhile_head_neg (by decide) _ _)

theorem scanValue (w : List Char) (Y : List Char) (hw : ∀ c ∈ w, jsSpace c = true) :
    (w ++ (valueLit ++ Y)).takeWhile jsSpace = w ∧ (w ++ (valueLit ++ Y)).dropWhile jsSpace = valueLit ++ Y :=
  takeWhile_stop (valueLit ++ Y) hw (by rw [valueLit_eq]; exact takeWhile_head_neg (by decide) _ _)

theorem scanQuote (l : List Char) (Y : List Char) (hl : ∀ c ∈ l, notQuote c = true) :
    (l ++ ('"' :: Y)).takeWhile notQuote = l ∧ (l ++ ('"' :: Y)).dropWhile notQuote = '"' :: Y :=
  takeWhile_stop ('"' :: Y) hl (takeWhile_head_neg (by decide) [] Y)

theorem scanClose (w : List Char) (Y : List Char) (hw : ∀ c ∈ w, jsSpace c = true) :
    (w ++ (closeLit ++ Y)).takeWhile jsSpace = w ∧ (w ++ (closeLit ++ Y)).dropWhile jsSpace = closeLit ++ Y :=
  takeWhile_stop (closeLit ++ Y) hw (by rw [closeLit_eq]; exact takeWhile_head_neg (by decide) _ _)

end GhaTrace

namespace GhaTrace

/-! ### The shape of a successful tag match -/

theorem dropLit_quote (X : List Char) : dropLit ['"'] ('"' :: X) = some X := by
  simp [dropLit]

theorem matchTagFrom_nil (name : List Char) : matchTagFrom name [] = none := rfl

theorem matchTagFrom_head_neg {name : List Char} {c : Char} (hc : ¬c = '<') (cs : List Char) :
    matchTagFrom name (c :: cs) = none := by
  simp [matchTagFrom, dropLit_head_neg hc]

/-- Forward decomposition: a successful match splits the input into the
literal pieces, whitespace runs and the two captures. -/
theorem matchTagFrom_some {name cs : List Char} {k v : String} {rest : List Char}
    (h : matchTagFrom name cs = some (k, v, rest)) :
    ∃ w1 kd w2 vd w3 : List Char,
      cs = ('<' :: name) ++ (w1 ++ (keyLit ++ (kd ++ ('"' :: (w2 ++ (valueLit ++ (vd ++ ('"' :: (w3 ++ (closeLit ++ rest)))))))))) ∧
      w1 ≠ [] ∧ (∀ c ∈ w1, jsSpace c = true) ∧
      kd ≠ [] ∧ (∀ c ∈ kd, notQuote c = true) ∧
      w2 ≠ [] ∧ (∀ c ∈ w2, jsSpace c = true) ∧
      (∀ c ∈ vd, notQuote c = true) ∧
      (∀ c ∈ w3, jsSpace c = true) ∧
      k = ⟨kd⟩ ∧ v = ⟨vd⟩ := by
  unfold matchTagFrom at h
  rw [Option.bind_eq_some] at h
  obtain ⟨cs1, h1, h⟩ := h
  by_cases hg1 : cs1.takeWhile jsSpace = []
  · rw [if_pos hg1] at h; cases h
  rw [if_neg hg1] at h
  rw [Option.bind_eq_some] at h
  obtain ⟨cs3, h3, h⟩ := h
  by_cases hg2 : cs3.takeWhile notQuote = []
  · rw [if_pos hg2] at h; cases h
  rw [if_neg hg2] at h
  rw [Option.bind_eq_some] at h
  obtain ⟨cs5, h5, h⟩ := h
  by_cases hg3 : cs5.takeWhile jsSpace = []
  · rw [if_pos hg3] at h; cases h
  rw [if_neg hg3] at h
  rw [Option.bind_eq_some] at h
  obtain ⟨cs7, h7, h⟩ := h
  rw [Option.bind_eq_some] at h
  obtain ⟨cs9, h9, h⟩ := h
  rw [Option.map_eq_some'] at h
  obtain ⟨cs10, h10, hres⟩ := h
  have hres' := hres
  rw [Prod.mk.injEq, Prod.mk.injEq] at hres'
  obtain ⟨hk, hv, hr⟩ := hres'
  refine ⟨cs1.takeWhile jsSpace, cs3.takeWhile notQuote, cs5.takeWhile jsSpace,
    cs7.takeWhile notQuote, cs9.takeWhile jsSpace, ?_, hg1,
    fun c hc => List.mem_takeWhile_imp hc, hg2, fun c hc => List.mem_takeWhile_imp hc,
    hg3, fun c hc => List.mem_takeWhile_imp hc, fun c hc => List.mem_takeWhile_imp hc,
    fun c hc => List.mem_takeWhile_imp hc, hk.symm, hv.symm⟩
  rw [dropLit_eq h1]
  congr 1
  conv_lhs => rw [← List.takeWhile_append_dropWhile jsSpace cs1]
  congr 1
  rw [dropLit_eq h3]
  congr 1
  conv_lhs => rw [← List.takeWhile_append_dropWhile notQuote cs3]
  congr 1
  rw [dropLit_eq h5]
  have e5 : (['"'] : List Char) ++ cs5 = '"' :: cs5 := rfl
  rw [e5]
  congr 1
  conv_lhs => rw [← List.takeWhile_append_dropWhile jsSpace cs5]
  congr 1
  rw [dropLit_eq h7]
  congr 1
  conv_lhs => rw [← List.takeWhile_append_dropWhile notQuote cs7]
  congr 1
  rw [dropLit_eq h9]
  have e9 : (['"'] : List Char) ++ cs9 = '"' :: cs9 := rfl
  rw [e9]
  congr 1
  conv_lhs => rw [← List.takeWhile_append_dropWhile jsSpace cs9]
  congr 1
  rw [dropLit_eq h10]
  rw [← hr]

/-- Reverse direction: any input of the decomposed shape matches, with the
expected captures and rest. -/
theorem matchTagFrom_build {name w1 kd w2 vd w3 rest : List Char}
    (hw1 : w1 ≠ []) (hw1s : ∀ c ∈ w1, jsSpace c = true)
    (hkd : kd ≠ []) (hkdq : ∀ c ∈ kd, notQuote c = true)
    (hw2 : w2 ≠ []) (hw2s : ∀ c ∈ w2, jsSpace c = true)
    (hvdq : ∀ c ∈ vd, notQuote c = true)
    (hw3s : ∀ c ∈ w3, jsSpace c = true) :
    matchTagFrom name
      (('<' :: name) ++ (w1 ++ (keyLit ++ (kd ++ ('"' :: (w2 ++ (valueLit ++ (vd ++ ('"' :: (w3 ++ (closeLit ++ rest))))))))))) =
      some (⟨kd⟩, ⟨vd⟩, rest) := by
  unfold matchTagFrom
  rw [dropLit_append, Option.some_bind]
  rw [(scanKey w1 _ hw1s).1, if_neg hw1, (scanKey w1 _ hw1s).2]
  rw [dropLit_append, Option.some_bind]
  rw [(scanQuote kd _ hkdq).1, if_neg hkd, (scanQuote kd _ hkdq).2]
  rw [dropLit_quote, Option.some_bind]
  rw [(scanValue w2 _ hw2s).1, if_neg hw2, (scanValue w2 _ hw2s).2]
  rw [dropLit_append, Option.some_bind]
  rw [(scanQuote vd _ hvdq).1, (scanQuote vd _ hvdq).2]
  rw [dropLit_quote, Option.some_bind]
  rw [(scanClose w3 _ hw3s).2]
  rw [dropLit_append]
  rfl

theorem notQuote_of_jsSpace {c : Char} (h : jsSpace c = true) : notQuote c = true := by
  by_contra hq
  simp only [notQuote, Bool.not_eq_true'] at hq
  have : c = '"' := by simpa using hq
  rw [this] at h
  simp [jsSpace] at h

theorem count_quote_zero {l : List Char} (hl : ∀ c ∈ l, notQuote c = true) :
    l.count '"' = 0 := by
  rw [List.count_eq_zero]
  intro hmem
  have := hl _ hmem
  simp [notQuote] at this

/-- A successful match consumes exactly four double quotes. -/
theorem matchTagFrom_count {name cs : List Char} {k v : String} {rest : List Char}
    (hname : ∀ c ∈ name, notQuote c = true)
    (h : matchTagFrom name cs = some (k, v, rest)) :
    cs.count '"' = 4 + rest.count '"' := by
  obtain ⟨w1, kd, w2, vd, w3, E, _, hw1s, _, hkdq, _, hw2s, hvdq, hw3s, _, _⟩ :=
    matchTagFrom_some h
  subst E
  have c1 : keyLit.count '"' = 1 := by decide
  have c2 : valueLit.count '"' = 1 := by decide
  have c3 : closeLit.count '"' = 0 := by decide
  have cq : ∀ l : List Char, (∀ c ∈ l, jsSpace c = true) → l.count '"' = 0 := by
    intro l hl
    exact count_quote_zero (fun c hc => notQuote_of_jsSpace (hl c hc))
  simp [List.count_append, List.count_cons, c1, c2, c3,
    count_quote_zero hname, count_quote_zero hkdq, count_quote_zero hvdq,
    cq _ hw1s, cq _ hw2s, cq _ hw3s]
  omega

/-- A successful match consumes at least one character. -/
theorem matchTagFrom_rest_length {name cs : List Char} {k v : String} {rest : List Char}
    (h : matchTagFrom name cs = some (k, v, rest)) :
    rest.length < cs.length := by
  obtain ⟨w1, kd, w2, vd, w3, E, _⟩ := matchTagFrom_some h
  subst E
  simp [List.length_append, keyLit_eq, valueLit_eq, closeLit_eq]
  omega

/-- The rest of a successful match is the drop of the input by the consumed
length. -/
theorem matchTagFrom_drop {name cs : List Char} {k v : String} {rest : List Char}
    (h : matchTagFrom name cs = some (k, v, rest)) :
    cs.drop (cs.length - rest.length) = rest := by
  obtain ⟨w1, kd, w2, vd, w3, E, _⟩ := matchTagFrom_some h
  have hP : cs = (('<' :: name) ++ w1 ++ keyLit ++ kd ++ ['"'] ++ w2 ++ valueLit ++ vd ++ ['"'] ++ w3 ++ closeLit) ++ rest := by
    rw [E]; simp [List.append_assoc]
  rw [hP, List.length_append]
  have hlen : (('<' :: name) ++ w1 ++ keyLit ++ kd ++ ['"'] ++ w2 ++ valueLit ++ vd ++ ['"'] ++ w3 ++ closeLit).length + rest.length - rest.length = (('<' :: name) ++ w1 ++ keyLit ++ kd ++ ['"'] ++ w2 ++ valueLit ++ vd ++ ['"'] ++ w3 ++ closeLit).length := by
    omega
  rw [hlen, List.drop_left]

end GhaTrace

namespace GhaTrace

/-! ### The global scan -/

theorem scanPosAux_big {name full : List Char} {i : Nat} (h : full.length ≤ i) :
    ∀ f, scanPosAux name full i f = [] := by
  intro f
  cases f with
  | zero => rfl
  | succ f => simp [scanPosAux, h]

theorem scanPosAux_fuel (name full : List Char) :
    ∀ f g i, full.length - i < f → full.length - i < g →
      scanPosAux name full i f = scanPosAux name full i g := by
  intro f
  induction f with
  | zero => intro g i hf _; omega
  | succ f ih =>
    intro g i hf hg
    by_cases hb : full.length ≤ i
    · rw [scanPosAux_big hb, scanPosAux_big hb]
    · cases g with
      | zero => omega
      | succ g =>
        simp only [scanPosAux]
        rw [if_neg hb, if_neg hb]
        cases hm : matchTagFrom name (full.drop i) with
        | none =>
          dsimp only
          exact ih g (i + 1) (by omega) (by omega)
        | some x =>
          obtain ⟨k, v, rest⟩ := x
          have hc : rest.length < (full.drop i).length := matchTagFrom_rest_length hm
          have hlen : (full.drop i).length = full.length - i := List.length_drop i full
          dsimp only
          rw [ih g (i + ((full.drop i).length - rest.length)) (by omega) (by omega)]

theorem scanPos_big {name full : List Char} {i : Nat} (h : full.length ≤ i) :
    scanPos name full i = [] :=
  scanPosAux_big h _

/-- One-step unfolding of the global scan. -/
theorem scanPos_eq (name full : List Char) (i : Nat) :
    scanPos name full i =
      if full.length ≤ i then []
      else
        match matchTagFrom name (full.drop i) with
        | some (k, v, rest) =>
          (⟨i, (full.drop i).length - rest.length, k, v⟩ : TagHit) ::
            scanPos name full (i + ((full.drop i).length - rest.length))
        | none => scanPos name full (i + 1) := by
  by_cases hb : full.length ≤ i
  · rw [if_pos hb]
    exact scanPos_big hb
  · rw [if_neg hb]
    unfold scanPos
    have hfuel : full.length + 1 - i = (full.length - i) + 1 := by omega
    rw [hfuel]
    simp only [scanPosAux]
    rw [if_neg hb]
    cases hm : matchTagFrom name (full.drop i) with
    | none =>
      dsimp only
      by_cases hb2 : full.length ≤ i + 1
      · rw [scanPosAux_big hb2, scanPosAux_big hb2]
      · exact scanPosAux_fuel name full _ _ _ (by omega) (by omega)
    | some x =>
      obtain ⟨k, v, rest⟩ := x
      have hc : rest.length < (full.drop i).length := matchTagFrom_rest_length hm
      have hlen : (full.drop i).length = full.length - i := List.length_drop i full
      dsimp only
      congr 1
      by_cases hb2 : full.length ≤ i + ((full.drop i).length - rest.length)
      · rw [scanPosAux_big hb2, scanPosAux_big hb2]
      · exact scanPosAux_fuel name full _ _ _ (by omega) (by omega)

/-- Every hit reported by the scan is a genuine match at its position, of
positive length, and its rest is the drop past the hit. -/
theorem scanPos_sound_aux (name full : List Char) :
    ∀ n i, full.length - i ≤ n → ∀ e ∈ scanPos name full i,
      i ≤ e.start ∧ 1 ≤ e.len ∧
      matchTagFrom name (full.drop e.start) =
        some (e.key, e.tagValue, full.drop (e.start + e.len)) := by
  intro n
  induction n with
  | zero =>
    intro i h e he
    rw [scanPos_big (by omega)] at he
    cases he
  | succ n ih =>
    intro i h e he
    rw [scanPos_eq] at he
    by_cases hb : full.length ≤ i
    · rw [if_pos hb] at he; cases he
    rw [if_neg hb] at he
    cases hm : matchTagFrom name (full.drop i) with
    | none =>
      rw [hm] at he
      have h2 := ih (i + 1) (by omega) e he
      exact ⟨by omega, h2.2⟩
    | some x =>
      obtain ⟨k, v, rest⟩ := x
      rw [hm] at he
      have hc : rest.length < (full.drop i).length := matchTagFrom_rest_length hm
      have hlen : (full.drop i).length = full.length - i := List.length_drop i full
      rcases List.mem_cons.mp he with he | he
      · subst he
        refine ⟨Nat.le_refl _, by simp; omega, ?_⟩
        have hdrop : full.drop (i + ((full.drop i).length - rest.length)) = rest := by
          rw [← List.drop_drop, matchTagFrom_drop hm]
        simp only [hdrop]
        exact hm
      · have h2 := ih (i + ((full.drop i).length - rest.length)) (by omega) e he
        exact ⟨by omega, h2.2⟩

/-- Any genuine match at a position at or after `p` is covered by some hit of
the scan from `p`: either it is found, or it starts strictly inside an
earlier found match. -/
theorem scanPos_complete_aux (name full : List Char) :
    ∀ n p, full.length - p ≤ n → ∀ i k v rest, p ≤ i →
      matchTagFrom name (full.drop i) = some (k, v, rest) →
      ∃ e ∈ scanPos name full p, e.start ≤ i ∧ i < e.start + e.len := by
  intro n
  induction n with
  | zero =>
    intro p h i k v rest hpi hm
    have hb : full.length ≤ i := by omega
    rw [List.drop_eq_nil_of_le hb, matchTagFrom_nil] at hm
    cases hm
  | succ n ih =>
    intro p h i k v rest hpi hm
    by_cases hb : full.length ≤ p
    · have hb2 : full.length ≤ i := by omega
      rw [List.drop_eq_nil_of_le hb2, matchTagFrom_nil] at hm
      cases hm
    rw [scanPos_eq, if_neg hb]
    cases hm0 : matchTagFrom name (full.drop p) with
    | none =>
      dsimp only
      have hne : p ≠ i := by
        intro hpe
        rw [hpe] at hm0
        rw [hm0] at hm
        cases hm
      obtain ⟨e, he, h1, h2⟩ := ih (p + 1) (by omega) i k v rest (by omega) hm
      exact ⟨e, he, h1, h2⟩
    | some x =>
      obtain ⟨k0, v0, rest0⟩ := x
      dsimp only
      have hc : rest0.length < (full.drop p).length := matchTagFrom_rest_length hm0
      have hlen : (full.drop p).length = full.length - p := List.length_drop p full
      by_cases hi : i < p + ((full.drop p).length - rest0.length)
      · exact ⟨⟨p, (full.drop p).length - rest0.length, k0, v0⟩, List.mem_cons_self _ _, hpi, hi⟩
      · obtain ⟨e, he, h1, h2⟩ :=
          ih (p + ((full.drop p).length - rest0.length)) (by omega) i k v rest (by omega) hm
        exact ⟨e, List.mem_cons_of_mem _ he, h1, h2⟩

/-- If no position matches, the scan is empty. -/
theorem scanPos_nil_aux (name full : List Char)
    (hall : ∀ j, matchTagFrom name (full.drop j) = none) :
    ∀ n p, full.length - p ≤ n → scanPos name full p = [] := by
  intro n
  induction n with
  | zero =>
    intro p h
    exact scanPos_big (by omega)
  | succ n ih =>
    intro p h
    by_cases hb : full.length ≤ p
    · exact scanPos_big hb
    rw [scanPos_eq, if_neg hb, hall p]
    exact ih (p + 1) (by omega)

/-- If the whole input is one match, the scan returns exactly that hit. -/
theorem scanPos_single {name full : List Char} {k v : String}
    (h : matchTagFrom name full = some (k, v, [])) :
    scanPos name full 0 = [⟨0, full.length, k, v⟩] := by
  have hne : full ≠ [] := by
    intro hnil
    rw [hnil, matchTagFrom_nil] at h
    cases h
  have hlen : 0 < full.length := List.length_pos.mpr hne
  rw [scanPos_eq, if_neg (by omega)]
  rw [List.drop_zero]
  rw [h]
  dsimp only
  have hdone : scanPos name full (0 + (full.length - ([] : List Char).length)) = [] :=
    scanPos_big (by simp)
  rw [hdone]
  simp

end GhaTrace

namespace GhaTrace

/-! ### Record lookups as last-write-wins readouts -/

theorem fb_none (a : Option String) : fb a none = a := by
  cases a <;> rfl

theorem fb_assoc (a b c : Option String) : fb (fb a b) c = fb a (fb b c) := by
  cases a <;> rfl

theorem applyMatches_lookup :
    ∀ (l : List (String × String)) (m : StrMap) (q : String),
      applyMatches m l q = fb (lastVal l q) (m q) := by
  intro l
  induction l with
  | nil => intro m q; rfl
  | cons p rest ih =>
    intro m q
    have h1 : applyMatches m (p :: rest) q = applyMatches (setk m p.1 p.2) rest q := rfl
    have h2 : lastVal (p :: rest) q = fb (lastVal rest q) (if q = p.1 then some p.2 else none) := rfl
    rw [h1, ih, h2, fb_assoc]
    congr 1
    by_cases hq : q = p.1 <;> simp [setk, fb, hq]

theorem lastVal_append :
    ∀ (a b : List (String × String)) (q : String),
      lastVal (a ++ b) q = fb (lastVal b q) (lastVal a q) := by
  intro a
  induction a with
  | nil => intro b q; exact (fb_none _).symm
  | cons p rest ih =>
    intro b q
    have h1 : lastVal ((p :: rest) ++ b) q =
        fb (lastVal (rest ++ b) q) (if q = p.1 then some p.2 else none) := rfl
    rw [h1, ih, fb_assoc]
    rfl

/-- The step scope readout: step-parameter matches shadow span-parameter
matches, and within each shape the last occurrence wins. -/
theorem stepParameters_eq (logs : String) (q : String) :
    (parseStepLogs logs).stepParameters q =
      fb (lastVal (scanTags STEP_TAG logs.data) q) (lastVal (scanTags SPAN_TAG logs.data) q) := by
  have h0 : (parseStepLogs logs).stepParameters q =
      applyMatches (applyMatches emptyMap (scanTags SPAN_TAG logs.data))
        (scanTags STEP_TAG logs.data) q := rfl
  rw [h0, applyMatches_lookup, applyMatches_lookup]
  have h1 : emptyMap q = none := rfl
  rw [h1, fb_none]

theorem jobParameters_eq (logs : String) (q : String) :
    (parseStepLogs logs).jobParameters q = lastVal (scanTags JOB_TAG logs.data) q := by
  have h0 : (parseStepLogs logs).jobParameters q =
      applyMatches emptyMap (scanTags JOB_TAG logs.data) q := rfl
  rw [h0, applyMatches_lookup]
  exact fb_none _

theorem workflowParameters_eq (logs : String) (q : String) :
    (parseStepLogs logs).workflowParameters q = lastVal (scanTags WORKFLOW_TAG logs.data) q := by
  have h0 : (parseStepLogs logs).workflowParameters q =
      applyMatches emptyMap (scanTags WORKFLOW_TAG logs.data) q := rfl
  rw [h0, applyMatches_lookup]
  exact fb_none _

/-- A key is absent from the readout iff no scanned pair carries it. -/
theorem lastVal_none_iff (l : List (String × String)) (q : String) :
    lastVal l q = none ↔ ∀ p ∈ l, p.1 ≠ q := by
  induction l with
  | nil => simp [lastVal]
  | cons p rest ih =>
    have h1 : lastVal (p :: rest) q =
        fb (lastVal rest q) (if q = p.1 then some p.2 else none) := rfl
    rw [h1]
    constructor
    · intro hx r hr
      have hfb : ∀ a b : Option String, fb a b = none → a = none ∧ b = none := by
        intro a b hab
        cases a with
        | some v => cases hab
        | none => exact ⟨rfl, hab⟩
      obtain ⟨ha, hb⟩ := hfb _ _ hx
      rcases List.mem_cons.mp hr with rfl | hr2
      · intro hq
        rw [if_pos hq.symm] at hb
        cases hb
      · exact ih.mp ha r hr2
    · intro hall
      have ha : lastVal rest q = none := ih.mpr (fun r hr => hall r (List.mem_cons_of_mem _ hr))
      have hb : (if q = p.1 then some p.2 else none) = none :=
        if_neg (fun hq => hall p (List.mem_cons_self _ _) hq.symm)
      rw [ha, hb]
      rfl

/-! ### The merge -/

theorem SpanParameters.ext' {a b : SpanParameters} (hw : a.workflow = b.workflow)
    (hj : a.job = b.job) (hs : a.steps = b.steps) : a = b := by
  cases a; cases b; cases hw; cases hj; cases hs; rfl

theorem merge_none_none : mergeSpanParameters none none = emptySpanParameters := rfl

theorem merge_none_some (L : SpanParameters) : mergeSpanParameters none (some L) = L := by
  refine SpanParameters.ext' rfl rfl ?_
  funext s
  show Option.map (fun (m : StrMap) q => m q) (L.steps s) = L.steps s
  cases L.steps s <;> rfl

theorem merge_some_none (A : SpanParameters) : mergeSpanParameters (some A) none = A := by
  refine SpanParameters.ext' ?_ ?_ ?_
  · funext q
    show fb (A.workflow q) none = A.workflow q
    exact fb_none _
  · funext q
    show fb (A.job q) none = A.job q
    exact fb_none _
  · funext s
    show (match A.steps s with
        | some sp => some (spread emptyMap sp)
        | none => none) = A.steps s
    cases A.steps s with
    | none => rfl
    | some sp =>
      have hsp : spread emptyMap sp = sp := by
        funext q
        show fb (sp q) none = sp q
        exact fb_none _
      dsimp only
      rw [hsp]

theorem merge_workflow (A L : SpanParameters) (q : String) :
    (mergeSpanParameters (some A) (some L)).workflow q = fb (A.workflow q) (L.workflow q) := rfl

theorem merge_job (A L : SpanParameters) (q : String) :
    (mergeSpanParameters (some A) (some L)).job q = fb (A.job q) (L.job q) := rfl

/-- The merged `steps` entry of one step name, as a function of the two
sources at that name only. -/
theorem merge_steps_eq (A L : SpanParameters) (s : String) :
    (mergeSpanParameters (some A) (some L)).steps s =
      match A.steps s with
      | some sp => some (spread (match L.steps s with | some m => m | none => emptyMap) sp)
      | none => L.steps s := by
  show (match A.steps s with
      | some sp =>
        some (spread (match Option.map (fun (m : StrMap) q => m q) (L.steps s) with
          | some m => m
          | none => emptyMap) sp)
      | none => Option.map (fun (m : StrMap) q => m q) (L.steps s)) = _
  cases A.steps s with
  | none => cases L.steps s <;> rfl
  | some sp => cases L.steps s <;> rfl

theorem merge_steps_isSome (A L : SpanParameters) (s : String) :
    ((mergeSpanParameters (some A) (some L)).steps s).isSome =
      ((A.steps s).isSome || (L.steps s).isSome) := by
  rw [merge_steps_eq]
  cases A.steps s <;> cases L.steps s <;> rfl

theorem merge_stepVal (A L : SpanParameters) (s q : String) :
    stepVal (mergeSpanParameters (some A) (some L)) s q =
      fb (stepVal A s q) (stepVal L s q) := by
  unfold stepVal
  rw [merge_steps_eq]
  cases A.steps s with
  | none =>
    cases L.steps s with
    | none => rfl
    | some mL => cases mL q <;> rfl
  | some mA =>
    cases L.steps s with
    | none =>
      show (spread emptyMap mA) q = fb (mA q) none
      rfl
    | some mL =>
      show (spread mL mA) q = fb (mA q) (mL q)
      rfl

end GhaTrace

namespace GhaTrace

/-! ### The segmenter -/

theorem mapSet_append {m : List (Int × ParsedStepLogs)} {k : Int}
    (h : ∀ p ∈ m, p.1 < k) (v : ParsedStepLogs) :
    mapSet m k v = m ++ [(k, v)] := by
  unfold mapSet
  have hany : m.any (fun p => p.1 == k) = false := by
    rw [List.any_eq_false]
    intro p hp
    have := h p hp
    simp only [beq_iff_eq]
    omega
  rw [hany]
  simp

theorem flushSeg_pos {k : Int} {cur : List (List Char)} {acc : List (Int × ParsedStepLogs)}
    (hk : 0 ≤ k) (hcur : cur ≠ []) (hacc : ∀ p ∈ acc, p.1 < k) :
    flushSeg ⟨k, cur, acc⟩ = acc ++ [(k, parseStepLogs (joinNl cur))] := by
  unfold flushSeg
  rw [if_pos ⟨hk, hcur⟩]
  exact mapSet_append hacc _

theorem segStep_marker {st : SegState} {l : List Char} (hl : hasMarker l = true) :
    segStep st l = ⟨st.idx + 1, [l], flushSeg st⟩ := by
  unfold segStep
  rw [if_pos hl]

theorem segStep_plain {st : SegState} {l : List Char} (hl : ¬hasMarker l = true) :
    segStep st l = ⟨st.idx, st.cur ++ [l], st.acc⟩ := by
  unfold segStep
  rw [if_neg hl]

theorem flushSeg_junk (cur0 : List (List Char)) : flushSeg ⟨-1, cur0, []⟩ = [] := by
  unfold flushSeg
  have hne : ¬(0 ≤ (⟨-1, cur0, []⟩ : SegState).idx ∧ (⟨-1, cur0, []⟩ : SegState).cur ≠ []) := by
    intro hcontra
    exact absurd hcontra.1 (by norm_num)
  rw [if_neg hne]

/-- Main loop invariant: from a state with a running step index and an open
segment, the remainder of the fold produces exactly the parsed segments, keyed
consecutively. -/
theorem foldl_segStep_spec :
    ∀ (lines : List (List Char)) (k : Int) (cur : List (List Char))
      (acc : List (Int × ParsedStepLogs)),
      0 ≤ k → cur ≠ [] → (∀ p ∈ acc, p.1 < k) →
      flushSeg (lines.foldl segStep ⟨k, cur, acc⟩) =
        acc ++ enumSegs k (segsFrom cur lines) := by
  intro lines
  induction lines with
  | nil =>
    intro k cur acc hk hcur hacc
    show flushSeg ⟨k, cur, acc⟩ = acc ++ enumSegs k [cur]
    rw [flushSeg_pos hk hcur hacc]
    rfl
  | cons l rest ih =>
    intro k cur acc hk hcur hacc
    show flushSeg (rest.foldl segStep (segStep ⟨k, cur, acc⟩ l)) = _
    by_cases hl : hasMarker l = true
    · rw [segStep_marker hl]
      dsimp only
      rw [flushSeg_pos hk hcur hacc]
      have hacc2 : ∀ p ∈ acc ++ [(k, parseStepLogs (joinNl cur))], p.1 < k + 1 := by
        intro p hp
        rcases List.mem_append.mp hp with h1 | h1
        · have := hacc p h1; omega
        · simp at h1
          subst h1
          show k < k + 1
          omega
      rw [ih (k + 1) [l] (acc ++ [(k, parseStepLogs (joinNl cur))]) (by omega) (by simp) hacc2]
      have hsegs : segsFrom cur (l :: rest) = cur :: segsFrom [l] rest := by
        have h0 : segsFrom cur (l :: rest) =
            if hasMarker l = true then cur :: segsFrom [l] rest
            else segsFrom (cur ++ [l]) rest := rfl
        rw [h0, if_pos hl]
      rw [hsegs]
      show acc ++ [(k, parseStepLogs (joinNl cur))] ++ enumSegs (k + 1) (segsFrom [l] rest) =
        acc ++ ((k, parseStepLogs (joinNl cur)) :: enumSegs (k + 1) (segsFrom [l] rest))
      simp [List.append_assoc]
    · rw [segStep_plain hl]
      dsimp only
      rw [ih k (cur ++ [l]) acc hk (by simp) hacc]
      have hsegs : segsFrom cur (l :: rest) = segsFrom (cur ++ [l]) rest := by
        have h0 : segsFrom cur (l :: rest) =
            if hasMarker l = true then cur :: segsFrom [l] rest
            else segsFrom (cur ++ [l]) rest := rfl
        rw [h0, if_neg hl]
      rw [hsegs]

/-- Before the first marker the fold only accumulates discarded lines; the
first marker line starts step 0. -/
theorem foldl_segStep_junk :
    ∀ (lines cur0 : List (List Char)),
      lines.foldl segStep ⟨-1, cur0, []⟩ =
        (match lines.dropWhile (fun l => !hasMarker l) with
         | [] => (⟨-1, cur0 ++ lines, []⟩ : SegState)
         | m :: rest => rest.foldl segStep ⟨0, [m], []⟩) := by
  intro lines
  induction lines with
  | nil => intro cur0; simp
  | cons l rest ih =>
    intro cur0
    by_cases hl : hasMarker l = true
    · have hd : (l :: rest).dropWhile (fun l => !hasMarker l) = l :: rest := by
        rw [List.dropWhile_cons]
        simp [hl]
      rw [hd]
      show rest.foldl segStep (segStep ⟨-1, cur0, []⟩ l) = rest.foldl segStep ⟨0, [l], []⟩
      congr 1
      rw [segStep_marker hl]
      dsimp only
      rw [flushSeg_junk]
      norm_num
    · have hd : (l :: rest).dropWhile (fun l => !hasMarker l) =
          rest.dropWhile (fun l => !hasMarker l) := by
        rw [List.dropWhile_cons]
        simp [hl]
      rw [hd]
      show rest.foldl segStep (segStep ⟨-1, cur0, []⟩ l) = _
      rw [segStep_plain hl]
      dsimp only
      rw [ih (cur0 ++ [l])]
      cases hdw : rest.dropWhile (fun l => !hasMarker l) with
      | nil =>
        dsimp only
        congr 1
        simp
      | cons m r2 => rfl

/-- Function `parseJobLogs` on a non-degenerate input is the parsed segmentation. -/
theorem parseJobLogs_eq (jobLog : String) (steps : List Step)
    (hlog : ¬jobLog = "") (hsteps : ¬steps = []) :
    parseJobLogs jobLog steps = enumSegs 0 (segmentsOf (splitNl jobLog.data)) := by
  unfold parseJobLogs
  rw [if_neg (by simp [hlog, hsteps])]
  rw [foldl_segStep_junk]
  unfold segmentsOf
  cases hdw : (splitNl jobLog.data).dropWhile (fun l => !hasMarker l) with
  | nil =>
    dsimp only
    rw [flushSeg_junk]
    rfl
  | cons m r2 =>
    dsimp only
    rw [foldl_segStep_spec r2 0 [m] [] (by omega) (by simp) (by simp)]
    rfl

theorem dropWhile_head_false {p : List Char → Bool} :
    ∀ (l : List (List Char)) {x : List Char} {xs : List (List Char)},
      l.dropWhile p = x :: xs → p x = false := by
  intro l
  induction l with
  | nil => intro x xs h; cases h
  | cons a rest ih =>
    intro x xs h
    rw [List.dropWhile_cons] at h
    by_cases ha : p a = true
    · rw [if_pos ha] at h
      exact ih h
    · rw [if_neg ha] at h
      injection h with h1 _
      subst h1
      cases hpa : p a with
      | false => rfl
      | true => exact absurd hpa ha

theorem segsFrom_length :
    ∀ (lines cur : List (List Char)),
      (segsFrom cur lines).length = 1 + (lines.filter hasMarker).length := by
  intro lines
  induction lines with
  | nil => intro cur; rfl
  | cons l rest ih =>
    intro cur
    have h0 : segsFrom cur (l :: rest) =
        if hasMarker l = true then cur :: segsFrom [l] rest
        else segsFrom (cur ++ [l]) rest := rfl
    by_cases hl : hasMarker l = true
    · rw [h0, if_pos hl]
      simp [List.filter_cons, hl, ih]
      omega
    · rw [h0, if_neg hl]
      simp only [List.filter_cons]
      have hl2 : hasMarker l = false := by
        cases hx : hasMarker l with
        | false => rfl
        | true => exact absurd hx hl
      rw [hl2]
      simp [ih]

/-- The number of segments equals the number of marker lines. -/
theorem segmentsOf_length (lines : List (List Char)) :
    (segmentsOf lines).length = (lines.filter hasMarker).length := by
  have hft : (lines.takeWhile (fun l => !hasMarker l)).filter hasMarker = [] := by
    rw [List.filter_eq_nil_iff]
    intro a ha
    have h2 := List.mem_takeWhile_imp ha
    simp at h2
    simp [h2]
  have hsplit : lines.filter hasMarker =
      (lines.takeWhile (fun l => !hasMarker l)).filter hasMarker ++
        (lines.dropWhile (fun l => !hasMarker l)).filter hasMarker := by
    rw [← List.filter_append, List.takeWhile_append_dropWhile]
  unfold segmentsOf
  cases hdw : lines.dropWhile (fun l => !hasMarker l) with
  | nil =>
    rw [hsplit, hdw, hft]
    rfl
  | cons m r2 =>
    have hm : hasMarker m = true := by
      have := dropWhile_head_false lines hdw
      simp at this
      exact this
    rw [hsplit, hdw, hft, List.nil_append, List.filter_cons, hm]
    rw [segsFrom_length]
    simp
    omega

theorem enumSegs_length :
    ∀ (segs : List (List (List Char))) (k : Int), (enumSegs k segs).length = segs.length := by
  intro segs
  induction segs with
  | nil => intro k; rfl
  | cons s rest ih =>
    intro k
    show (enumSegs k (s :: rest)).length = rest.length + 1
    unfold enumSegs
    simp [ih]

theorem enumSegs_keys :
    ∀ (segs : List (List (List Char))) (k : Int),
      (enumSegs k segs).map Prod.fst =
        (List.range segs.length).map (fun i : Nat => k + (i : Int)) := by
  intro segs
  induction segs with
  | nil => intro k; rfl
  | cons s rest ih =>
    intro k
    show k :: (enumSegs (k + 1) rest).map Prod.fst = _
    rw [ih, List.length_cons, List.range_succ_eq_map]
    simp only [List.map_cons, List.map_map]
    refine List.cons_eq_cons.mpr ⟨by norm_num, ?_⟩
    refine List.map_congr_left ?_
    intro i _
    simp only [Function.comp_apply]
    push_cast
    ring

end GhaTrace

namespace GhaTrace

/-! ### Captures in full generality (claim C5 infrastructure) -/

theorem tagText_split (K V : String) :
    (tagText K V).data = spanOpenLit ++ (K.data ++ (midLit ++ (V.data ++ endLit))) := by
  unfold tagText spanOpenLit midLit endLit
  simp [String.data_append, List.append_assoc]

theorem spanOpen_shape : spanOpenLit = ('<' :: SPAN_TAG) ++ ([' '] ++ keyLit) := by decide

theorem mid_shape : midLit = '"' :: ([' '] ++ valueLit) := by decide

theorem end_shape : endLit = '"' :: closeLit := by decide

theorem tagText_build_shape (K V : String) :
    (tagText K V).data =
      ('<' :: SPAN_TAG) ++
        ([' '] ++ (keyLit ++ (K.data ++ ('"' :: ([' '] ++ (valueLit ++ (V.data ++
          ('"' :: (([] : List Char) ++ (closeLit ++ ([] : List Char))))))))))) := by
  rw [tagText_split, spanOpen_shape, mid_shape, end_shape]
  simp [List.append_assoc]

/-- Any non-empty quote-free key and any quote-free value are recognized,
with the whole tag text consumed. -/
theorem C5_span_match (K V : String) (hK : K.data ≠ [])
    (hKq : ∀ c ∈ K.data, notQuote c = true) (hVq : ∀ c ∈ V.data, notQuote c = true) :
    matchTagFrom SPAN_TAG (tagText K V).data = some (K, V, []) := by
  rw [tagText_build_shape]
  have hw1 : ([' '] : List Char) ≠ [] := by decide
  have hw1s : ∀ c ∈ ([' '] : List Char), jsSpace c = true := by decide
  have hw3s : ∀ c ∈ ([] : List Char), jsSpace c = true := by decide
  exact matchTagFrom_build hw1 hw1s hK hKq hw1 hw1s hVq hw3s

/-- No step-parameter tag matches anywhere inside a span-parameter tag text:
before the captures there is a literal mismatch, and from the key capture on,
fewer than four quotes remain. -/
theorem C5_no_step_match (K V : String)
    (hKq : ∀ c ∈ K.data, notQuote c = true) (hVq : ∀ c ∈ V.data, notQuote c = true) :
    ∀ i, matchTagFrom STEP_TAG ((tagText K V).data.drop i) = none := by
  intro i
  rw [tagText_split]
  have hlen21 : spanOpenLit.length = 21 := by decide
  rcases Nat.lt_or_ge i spanOpenLit.length with hi | hi
  · have hdropapp : (spanOpenLit ++ (K.data ++ (midLit ++ (V.data ++ endLit)))).drop i =
        spanOpenLit.drop i ++ (K.data ++ (midLit ++ (V.data ++ endLit))) := by
      rw [List.drop_append_eq_append_drop]
      have h0 : i - spanOpenLit.length = 0 := by omega
      rw [h0, List.drop_zero]
    rw [hdropapp]
    rcases Nat.eq_zero_or_pos i with rfl | hipos
    · rw [List.drop_zero]
      have h1 : dropLit ('<' :: STEP_TAG)
          (spanOpenLit ++ (K.data ++ (midLit ++ (V.data ++ endLit)))) = none := by
        have hso : spanOpenLit = '<' :: 's' :: 'p' :: "an-parameter key=\"".data := by decide
        have hst : STEP_TAG = 's' :: 't' :: "ep-parameter".data := by decide
        rw [hso, hst]
        simp [dropLit]
      unfold matchTagFrom
      rw [h1]
      rfl
    · have hne : spanOpenLit.drop i ≠ [] := by
        intro h0
        have h2 := congrArg List.length h0
        rw [List.length_drop] at h2
        simp at h2
        omega
      obtain ⟨c, t, hct⟩ := List.exists_cons_of_ne_nil hne
      have hsub : spanOpenLit.drop i ⊆ spanOpenLit.drop 1 := by
        have hdd : spanOpenLit.drop i = (spanOpenLit.drop 1).drop (i - 1) := by
          rw [List.drop_drop]
          congr 1
          omega
        rw [hdd]
        exact List.drop_subset _ _
      have hcmem : c ∈ spanOpenLit.drop 1 := hsub (by rw [hct]; exact List.mem_cons_self _ _)
      have hall : ∀ c ∈ spanOpenLit.drop 1, ¬c = '<' := by decide
      rw [hct, List.cons_append]
      exact matchTagFrom_head_neg (hall c hcmem) _
  · have hdropapp : (spanOpenLit ++ (K.data ++ (midLit ++ (V.data ++ endLit)))).drop i =
        (K.data ++ (midLit ++ (V.data ++ endLit))).drop (i - spanOpenLit.length) := by
      rw [List.drop_append_eq_append_drop, List.drop_eq_nil_of_le (by omega), List.nil_append]
    rw [hdropapp]
    cases hm : matchTagFrom STEP_TAG
        ((K.data ++ (midLit ++ (V.data ++ endLit))).drop (i - spanOpenLit.length)) with
    | none => rfl
    | some x =>
      exfalso
      obtain ⟨k0, v0, r0⟩ := x
      have hstq : ∀ c ∈ ('s' :: 't' :: "ep-parameter".data), notQuote c = true := by decide
      have hst : STEP_TAG = 's' :: 't' :: "ep-parameter".data := by decide
      rw [hst] at hm
      have hcount := matchTagFrom_count hstq hm
      have hmid : midLit.count '"' = 2 := by decide
      have hend : endLit.count '"' = 1 := by decide
      have hXcount : (K.data ++ (midLit ++ (V.data ++ endLit))).count '"' = 3 := by
        simp [List.count_append, hmid, hend, count_quote_zero hKq, count_quote_zero hVq]
      have hle : ((K.data ++ (midLit ++ (V.data ++ endLit))).drop (i - spanOpenLit.length)).count '"' ≤ 3 := by
        calc ((K.data ++ (midLit ++ (V.data ++ endLit))).drop (i - spanOpenLit.length)).count '"'
            ≤ (K.data ++ (midLit ++ (V.data ++ endLit))).count '"' :=
              List.Sublist.count_le (List.drop_sublist _ _) _
          _ = 3 := hXcount
      omega

/-- The step-parameter scan of a span tag text is empty. -/
theorem C5_step_scan_empty (K V : String)
    (hKq : ∀ c ∈ K.data, notQuote c = true) (hVq : ∀ c ∈ V.data, notQuote c = true) :
    scanTags STEP_TAG (tagText K V).data = [] := by
  unfold scanTags
  rw [scanPos_nil_aux STEP_TAG _ (C5_no_step_match K V hKq hVq) (tagText K V).data.length 0
    (by omega)]
  rfl

/-- The generic tag text decomposes into the matchable shape, for every tag
name. -/
theorem tagTextFor_data (name : List Char) (K V : String) :
    (tagTextFor name K V).data =
      ('<' :: name) ++
        ([' '] ++ (keyLit ++ (K.data ++ ('"' :: ([' '] ++ (valueLit ++ (V.data ++
          ('"' :: (([] : List Char) ++ (closeLit ++ ([] : List Char))))))))))) := by
  unfold tagTextFor
  have h1 : (" key=\"" : String).data = ' ' :: keyLit := by decide
  have h2 : ("\" value=\"" : String).data = '"' :: ([' '] ++ valueLit) := by decide
  have h3 : ("\"/>" : String).data = '"' :: closeLit := by decide
  have h4 : ("<" : String).data = ['<'] := by decide
  simp [String.data_append, h1, h2, h3, h4, keyLit_eq, valueLit_eq, closeLit_eq,
    List.append_assoc]

/-- Any of the four shapes recognizes any non-empty quote-free key and any
quote-free value, consuming the whole tag text. -/
theorem C5_match_for (name : List Char) (K V : String) (hK : K.data ≠ [])
    (hKq : ∀ c ∈ K.data, notQuote c = true) (hVq : ∀ c ∈ V.data, notQuote c = true) :
    matchTagFrom name (tagTextFor name K V).data = some (K, V, []) := by
  rw [tagTextFor_data]
  have hw1 : ([' '] : List Char) ≠ [] := by decide
  have hw1s : ∀ c ∈ ([' '] : List Char), jsSpace c = true := by decide
  have hw3s : ∀ c ∈ ([] : List Char), jsSpace c = true := by decide
  exact matchTagFrom_build hw1 hw1s hK hKq hw1 hw1s hVq hw3s

/-- The scan of a shape over its own tag text yields exactly the one pair. -/
theorem C5_scan_for (name : List Char) (K V : String) (hK : K.data ≠ [])
    (hKq : ∀ c ∈ K.data, notQuote c = true) (hVq : ∀ c ∈ V.data, notQuote c = true) :
    scanTags name (tagTextFor name K V).data = [(K, V)] := by
  unfold scanTags
  rw [scanPos_single (C5_match_for name K V hK hKq hVq)]
  rfl

theorem tagTextFor_span (K V : String) : tagTextFor SPAN_TAG K V = tagText K V := by
  apply String.ext
  rw [tagTextFor_data, tagText_build_shape]

/-- A tag with any non-empty quote-free key and any quote-free value (empty
included) puts exactly that binding in the step scope. -/
theorem C5_main (K V : String) (hK : K.data ≠ [])
    (hKq : ∀ c ∈ K.data, ¬c = '"') (hVq : ∀ c ∈ V.data, ¬c = '"') :
    (parseStepLogs (tagText K V)).stepParameters K = some V := by
  have hKq2 : ∀ c ∈ K.data, notQuote c = true := by
    intro c hc
    simp [notQuote, hKq c hc]
  have hVq2 : ∀ c ∈ V.data, notQuote c = true := by
    intro c hc
    simp [notQuote, hVq c hc]
  have hspan := C5_span_match K V hK hKq2 hVq2
  have hsingle := scanPos_single hspan
  have hstep := C5_step_scan_empty K V hKq2 hVq2
  rw [stepParameters_eq, hstep]
  unfold scanTags
  rw [hsingle]
  simp [lastVal, fb]

end GhaTrace

namespace GhaTrace

/-! ### Remaining helper lemmas -/

theorem scanTags_key_ne_empty (name full : List Char) :
    ∀ p ∈ scanTags name full, p.1 ≠ "" := by
  intro p hp
  unfold scanTags at hp
  rw [List.mem_map] at hp
  obtain ⟨e, he, hpe⟩ := hp
  have hs := scanPos_sound_aux name full full.length 0 (by omega) e he
  obtain ⟨w1, kd, w2, vd, w3, hE, hw1, hw1s, hkd, hkdq, hw2, hw2s, hvdq, hw3s, hk, hv⟩ :=
    matchTagFrom_some hs.2.2
  intro h0
  rw [← hpe] at h0
  have h2 : kd = [] := congrArg String.data (hk.symm.trans h0)
  exact hkd h2

theorem lastVal_isSome_of_mem :
    ∀ (l : List (String × String)) (p : String × String), p ∈ l →
      (lastVal l p.1).isSome = true := by
  intro l
  induction l with
  | nil => intro p hp; cases hp
  | cons q rest ih =>
    intro p hp
    have h1 : lastVal (q :: rest) p.1 =
        fb (lastVal rest p.1) (if p.1 = q.1 then some q.2 else none) := rfl
    rw [h1]
    rcases List.mem_cons.mp hp with rfl | hp2
    · cases hl : lastVal rest p.1 with
      | some v0 => rfl
      | none => rw [if_pos rfl]; rfl
    · have hS := ih p hp2
      cases hl : lastVal rest p.1 with
      | some v0 => rfl
      | none =>
        rw [hl] at hS
        simp at hS

/-! ### The claims -/

/-- Claim C1 (corrected): as stated the claim fails, because the scan is
left-to-right and non-overlapping: `advText` contains a well-formed
span-parameter occurrence with key `/>x` and value `v` starting at index 31,
inside the span of the match found at index 0, and that occurrence
contributes no entry to any of the three mappings. -/
theorem claim_C1_counterexample :
    matchTagFrom SPAN_TAG (advText.data.drop 31) = some ("/>x", "v", []) ∧
    (parseStepLogs advText).stepParameters "/>x" = none ∧
    (parseStepLogs advText).jobParameters "/>x" = none ∧
    (parseStepLogs advText).workflowParameters "/>x" = none := by
  refine ⟨by decide, by decide, by decide, by decide⟩

/-- Claim C1 (amended): the three mappings are exactly the last-wins readout
of the four global scans (so malformed tag-like text contributes no entry);
every hit of a scan is a well-formed occurrence at its position; every
well-formed occurrence of a shape anywhere in the text is either found or
starts strictly inside an earlier found match of that shape (the
non-overlapping rule); and every found pair is present in its mapping. -/
theorem claim_C1_amended (logs : String) (name : List Char) :
    (∀ q, (parseStepLogs logs).stepParameters q =
      fb (lastVal (scanTags STEP_TAG logs.data) q) (lastVal (scanTags SPAN_TAG logs.data) q)) ∧
    (∀ q, (parseStepLogs logs).jobParameters q = lastVal (scanTags JOB_TAG logs.data) q) ∧
    (∀ q, (parseStepLogs logs).workflowParameters q = lastVal (scanTags WORKFLOW_TAG logs.data) q) ∧
    (∀ e ∈ scanPos name logs.data 0,
      matchTagFrom name (logs.data.drop e.start) =
        some (e.key, e.tagValue, logs.data.drop (e.start + e.len))) ∧
    (∀ i k v rest, matchTagFrom name (logs.data.drop i) = some (k, v, rest) →
      ∃ e ∈ scanPos name logs.data 0, e.start ≤ i ∧ i < e.start + e.len) ∧
    (∀ kv ∈ scanTags SPAN_TAG logs.data ++ scanTags STEP_TAG logs.data,
      ((parseStepLogs logs).stepParameters kv.1).isSome = true) ∧
    (∀ kv ∈ scanTags JOB_TAG logs.data,
      ((parseStepLogs logs).jobParameters kv.1).isSome = true) ∧
    (∀ kv ∈ scanTags WORKFLOW_TAG logs.data,
      ((parseStepLogs logs).workflowParameters kv.1).isSome = true) := by
  refine ⟨fun q => stepParameters_eq logs q, fun q => jobParameters_eq logs q,
    fun q => workflowParameters_eq logs q, ?_, ?_, ?_, ?_, ?_⟩
  · intro e he
    exact (scanPos_sound_aux name logs.data logs.data.length 0 (by omega) e he).2.2
  · intro i k v rest hm
    exact scanPos_complete_aux name logs.data logs.data.length 0 (by omega) i k v rest
      (by omega) hm
  · intro kv hkv
    rw [stepParameters_eq]
    rcases List.mem_append.mp hkv with h1 | h1
    · have hS := lastVal_isSome_of_mem _ kv h1
      cases hl : lastVal (scanTags STEP_TAG logs.data) kv.1 with
      | some v0 => rfl
      | none =>
        show (lastVal (scanTags SPAN_TAG logs.data) kv.1).isSome = true
        exact hS
    · have hS := lastVal_isSome_of_mem _ kv h1
      cases hl : lastVal (scanTags STEP_TAG logs.data) kv.1 with
      | some v0 => rfl
      | none =>
        rw [hl] at hS
        simp at hS
  · intro kv hkv
    rw [jobParameters_eq]
    exact lastVal_isSome_of_mem _ kv hkv
  · intro kv hkv
    rw [workflowParameters_eq]
    exact lastVal_isSome_of_mem _ kv hkv

theorem claim_C1_witness :
    matchTagFrom SPAN_TAG ((tagText "a" "b").data.drop 0) = some ("a", "b", []) ∧
    (∃ e ∈ scanPos SPAN_TAG (tagText "a" "b").data 0, e.start ≤ 0 ∧ 0 < e.start + e.len) := by
  constructor
  · decide
  · exact (claim_C1_amended (tagText "a" "b") SPAN_TAG).2.2.2.2.1 0 "a" "b" [] (by decide)

/-- Claim C2: for present artifact and log bundles, the merged `workflow` and
`job` records are the key-wise union with the artifact value winning on
collisions; the merged step-name set is the union of the two step-name sets,
and each per-step record is the same artifact-wins union, pointwise in the
step name. -/
theorem claim_C2 (A L : SpanParameters) (q s : String) :
    (mergeSpanParameters (some A) (some L)).workflow q = fb (A.workflow q) (L.workflow q) ∧
    (mergeSpanParameters (some A) (some L)).job q = fb (A.job q) (L.job q) ∧
    ((mergeSpanParameters (some A) (some L)).steps s).isSome =
      ((A.steps s).isSome || (L.steps s).isSome) ∧
    stepVal (mergeSpanParameters (some A) (some L)) s q =
      fb (stepVal A s q) (stepVal L s q) :=
  ⟨merge_workflow A L q, merge_job A L q, merge_steps_isSome A L s, merge_stepVal A L s q⟩

/-- Claim C3: a job log whose line list holds `N ≥ 1` marker lines, with a
non-empty step list, parses to exactly the segments keyed `0..N-1` in
encounter order: each marker line starts its segment, lines before the first
marker are discarded, the final open segment is flushed, and each entry is
`parseStepLogs` of its segment joined by newlines. -/
theorem claim_C3 (jobLog : String) (steps : List Step)
    (hN : 1 ≤ ((splitNl jobLog.data).filter hasMarker).length)
    (hsteps : steps ≠ []) :
    parseJobLogs jobLog steps = enumSegs 0 (segmentsOf (splitNl jobLog.data)) ∧
    (parseJobLogs jobLog steps).length = ((splitNl jobLog.data).filter hasMarker).length ∧
    (parseJobLogs jobLog steps).map Prod.fst =
      (List.range ((splitNl jobLog.data).filter hasMarker).length).map
        (fun i : Nat => (i : Int)) := by
  have hlog : ¬jobLog = "" := by
    intro h0
    rw [h0] at hN
    have hz : ((splitNl ("" : String).data).filter hasMarker).length = 0 := by decide
    omega
  have hmain := parseJobLogs_eq jobLog steps hlog hsteps
  refine ⟨hmain, ?_, ?_⟩
  · rw [hmain, enumSegs_length, segmentsOf_length]
  · rw [hmain, enumSegs_keys, segmentsOf_length]
    refine List.map_congr_left ?_
    intro i _
    simp

theorem claim_C3_witness :
    1 ≤ ((splitNl logW.data).filter hasMarker).length ∧
    stepsW1 ≠ [] ∧
    parseJobLogs logW stepsW1 = enumSegs 0 (segmentsOf (splitNl logW.data)) :=
  ⟨by decide, by decide, (claim_C3 logW stepsW1 (by decide) (by decide)).1⟩

/-- Claim C4: in the step scope the legacy span-parameter pass is applied
first and the explicit step-parameter pass second, each in textual order with
last-wins, so the readout is the last step-parameter value when one exists
for the key (regardless of relative textual position) and the last
span-parameter value otherwise. -/
theorem claim_C4 (logs : String) (q : String) :
    (parseStepLogs logs).stepParameters q =
      fb (lastVal (scanTags STEP_TAG logs.data) q) (lastVal (scanTags SPAN_TAG logs.data) q) ∧
    (∀ v, lastVal (scanTags STEP_TAG logs.data) q = some v →
      (parseStepLogs logs).stepParameters q = some v) ∧
    (lastVal (scanTags STEP_TAG logs.data) q = none →
      (parseStepLogs logs).stepParameters q = lastVal (scanTags SPAN_TAG logs.data) q) := by
  refine ⟨stepParameters_eq logs q, ?_, ?_⟩
  · intro v hv
    rw [stepParameters_eq logs q, hv]
    rfl
  · intro hv
    rw [stepParameters_eq logs q, hv]
    rfl

theorem claim_C4_witness :
    lastVal (scanTags STEP_TAG crossText.data) "count" = some "2" ∧
    (parseStepLogs crossText).stepParameters "count" = some "2" :=
  ⟨by decide, (claim_C4 crossText "count").2.1 "2" (by decide)⟩

/-- Claim C5: in every recognized tag — all four shapes — the key may be any
non-empty sequence of non-quote characters and the value any sequence of
non-quote characters including the empty string, the binding landing in the
shape's own mapping; in particular a tag of any shape with `value=""`
records the key bound to the empty string. -/
theorem claim_C5 (K V : String) (hK : K.data ≠ [])
    (hKq : ∀ c ∈ K.data, ¬c = '"') (hVq : ∀ c ∈ V.data, ¬c = '"') :
    (parseStepLogs (tagTextFor SPAN_TAG K V)).stepParameters K = some V ∧
    (parseStepLogs (tagTextFor STEP_TAG K V)).stepParameters K = some V ∧
    (parseStepLogs (tagTextFor JOB_TAG K V)).jobParameters K = some V ∧
    (parseStepLogs (tagTextFor WORKFLOW_TAG K V)).workflowParameters K = some V ∧
    (parseStepLogs (tagTextFor SPAN_TAG "empty" "")).stepParameters "empty" = some "" ∧
    (parseStepLogs (tagTextFor STEP_TAG "empty" "")).stepParameters "empty" = some "" ∧
    (parseStepLogs (tagTextFor JOB_TAG "empty" "")).jobParameters "empty" = some "" ∧
    (parseStepLogs (tagTextFor WORKFLOW_TAG "empty" "")).workflowParameters "empty" = some "" := by
  have hKq2 : ∀ c ∈ K.data, notQuote c = true := by
    intro c hc
    simp [notQuote, hKq c hc]
  have hVq2 : ∀ c ∈ V.data, notQuote c = true := by
    intro c hc
    simp [notQuote, hVq c hc]
  refine ⟨?_, ?_, ?_, ?_, by decide, by decide, by decide, by decide⟩
  · rw [tagTextFor_span]
    exact C5_main K V hK hKq hVq
  · rw [stepParameters_eq, C5_scan_for STEP_TAG K V hK hKq2 hVq2]
    simp [lastVal, fb]
  · rw [jobParameters_eq, C5_scan_for JOB_TAG K V hK hKq2 hVq2]
    simp [lastVal, fb]
  · rw [workflowParameters_eq, C5_scan_for WORKFLOW_TAG K V hK hKq2 hVq2]
    simp [lastVal, fb]

theorem claim_C5_witness :
    "build.x".data ≠ [] ∧ (∀ c ∈ "build.x".data, ¬c = '"') ∧
    (∀ c ∈ "".data, ¬c = '"') ∧
    (parseStepLogs (tagTextFor SPAN_TAG "build.x" "")).stepParameters "build.x" = some "" ∧
    (parseStepLogs (tagTextFor JOB_TAG "build.x" "")).jobParameters "build.x" = some "" :=
  ⟨by decide, by decide, by decide,
    (claim_C5 "build.x" "" (by decide) (by decide) (by decide)).1,
    (claim_C5 "build.x" "" (by decide) (by decide) (by decide)).2.2.1⟩

/-- Claim C6: the supplied step descriptors never influence the result of
`parseJobLogs` beyond the non-emptiness test: any two non-empty step lists
give identical results on every log. -/
theorem claim_C6 (jobLog : String) (s1 s2 : List Step) (h1 : s1 ≠ []) (h2 : s2 ≠ []) :
    parseJobLogs jobLog s1 = parseJobLogs jobLog s2 := by
  unfold parseJobLogs
  by_cases hlog : jobLog = ""
  · rw [if_pos (Or.inl hlog), if_pos (Or.inl hlog)]
  · rw [if_neg (by simp [hlog, h1]), if_neg (by simp [hlog, h2])]

theorem claim_C6_witness :
    stepsW1 ≠ [] ∧ stepsW2 ≠ [] ∧ parseJobLogs logW stepsW1 = parseJobLogs logW stepsW2 :=
  ⟨by decide, by decide, claim_C6 logW stepsW1 stepsW2 (by decide) (by decide)⟩

/-- Claim C7: an absent argument is an identity for `mergeSpanParameters`:
both absent gives the empty bundle, one absent returns the other side
unchanged, and re-merging a merge result with an absent side is the identity. -/
theorem claim_C7 :
    mergeSpanParameters none none = emptySpanParameters ∧
    (∀ L : SpanParameters, mergeSpanParameters none (some L) = L) ∧
    (∀ A : SpanParameters, mergeSpanParameters (some A) none = A) ∧
    (∀ A L : SpanParameters,
      mergeSpanParameters (some (mergeSpanParameters (some A) (some L))) none =
        mergeSpanParameters (some A) (some L)) :=
  ⟨merge_none_none, merge_none_some, merge_some_none, fun A L => merge_some_none (mergeSpanParameters (some A) (some L))⟩

/-- Claim C8: the three core functions are total functions of their inputs in
this embedding (no exception path exists in the source), and empty or missing
inputs degrade to empty results. -/
theorem claim_C8 (logs : String) (steps : List Step) :
    parseStepLogs "" = emptyParsed ∧
    parseJobLogs "" steps = [] ∧
    parseJobLogs logs [] = [] ∧
    mergeSpanParameters none none = emptySpanParameters := by
  refine ⟨?_, ?_, ?_, merge_none_none⟩
  · rfl
  · unfold parseJobLogs
    rw [if_pos (Or.inl rfl)]
  · unfold parseJobLogs
    rw [if_pos (Or.inr rfl)]

/-- Claim C9: an empty log or an empty step list yields an empty mapping. -/
theorem claim_C9 :
    (∀ steps : List Step, parseJobLogs "" steps = []) ∧
    (∀ t : String, parseJobLogs t [] = []) := by
  constructor
  · intro steps
    unfold parseJobLogs
    rw [if_pos (Or.inl rfl)]
  · intro t
    unfold parseJobLogs
    rw [if_pos (Or.inr rfl)]

/-- Claim C10: no mapping of `parseStepLogs` ever contains the empty string
as a key — every scanned key is non-empty — and a tag written with
`key=""` is not matched at all. -/
theorem claim_C10 (logs : String) :
    (parseStepLogs logs).stepParameters "" = none ∧
    (parseStepLogs logs).jobParameters "" = none ∧
    (parseStepLogs logs).workflowParameters "" = none ∧
    scanTags SPAN_TAG "<span-parameter key=\"\" value=\"v\"/>".data = [] := by
  have hlv : ∀ name : List Char, lastVal (scanTags name logs.data) "" = none := by
    intro name
    rw [lastVal_none_iff]
    exact scanTags_key_ne_empty name logs.data
  refine ⟨?_, ?_, ?_, by decide⟩
  · rw [stepParameters_eq, hlv, hlv]
    rfl
  · rw [jobParameters_eq, hlv]
  · rw [workflowParameters_eq, hlv]

end GhaTrace
